import Mathlib

/-!
Shallow embedding of `src/simcse/models.py` (SimCSE contrastive-learning
head): the `Similarity` scorer, the `Pooler`, the projection-head (`MLPLayer`)
application policy, the distributed all-gather of embeddings, and the
contrastive-loss assembly of `cl_forward` with hard negatives and the
logit-bias `weights` matrix.

Tensors are modelled as lists of real numbers (vectors) and lists of rows
(matrices); float arithmetic is modelled as exact real arithmetic.
-/

namespace SimCSE

/-- Dot product of two vectors, `(x * y).sum` elementwise; the building block
of cosine similarity. -/
def dotProduct (x y : List ℝ) : ℝ :=
  (List.zipWith (fun a b => a * b) x y).sum

/-- Euclidean norm of a vector. Models the norm used by the numeric
library's `CosineSimilarity` (its small-epsilon clamp is abstracted to exact
real arithmetic). -/
noncomputable def l2norm (x : List ℝ) : ℝ :=
  Real.sqrt (dotProduct x x)

/-- Cosine similarity of two vectors: `x·y / (‖x‖ ‖y‖)`, as computed by
`nn.CosineSimilarity(dim=-1)` along the hidden dimension. -/
noncomputable def cosineSimilarity (x y : List ℝ) : ℝ :=
  dotProduct x y / (l2norm x * l2norm y)

/-- Models `Similarity.forward` (models.py lines 45-46):
`self.cos(x, y) / self.temp`. -/
noncomputable def Similarity.forward (temp : ℝ) (x y : List ℝ) : ℝ :=
  cosineSimilarity x y / temp

/-- Models the broadcast call `cls.sim(z1.unsqueeze(1), z2.unsqueeze(0))`
(models.py line 197): every row of `x` is scored against every row of `y`,
producing a `(x.length, y.length)` matrix. -/
noncomputable def simMatrix (temp : ℝ) (x y : List (List ℝ)) : List (List ℝ) :=
  x.map (fun xi => y.map (fun yj => Similarity.forward temp xi yj))

theorem getD_map_eq {α β : Type _} (f : α → β) (l : List α) (i : ℕ) (d : β)
    (h : i < l.length) : (l.map f).getD i d = f l[i] := by
  rw [List.getD_eq_getElem _ _ (by simpa using h), List.getElem_map]

theorem zipWith_mul_self (x : List ℝ) :
    List.zipWith (fun a b => a * b) x x = x.map (fun a => a * a) := by
  induction x with
  | nil => rfl
  | cons a t ih => simp [List.zipWith, ih]

theorem dotProduct_self_nonneg (x : List ℝ) : 0 ≤ dotProduct x x := by
  unfold dotProduct
  rw [zipWith_mul_self]
  apply List.sum_nonneg
  intro a ha
  rcases List.mem_map.1 ha with ⟨b, _, rfl⟩
  exact mul_self_nonneg b

theorem dotProduct_self_pos (x : List ℝ) (h : ∃ v ∈ x, v ≠ 0) :
    0 < dotProduct x x := by
  rcases h with ⟨v, hv, hvne⟩
  unfold dotProduct
  rw [zipWith_mul_self]
  have hmem : v * v ∈ x.map (fun a => a * a) := List.mem_map.2 ⟨v, hv, rfl⟩
  have hle : v * v ≤ (x.map (fun a => a * a)).sum := by
    apply List.single_le_sum _ _ hmem
    intro a ha
    rcases List.mem_map.1 ha with ⟨b, _, rfl⟩
    exact mul_self_nonneg b
  exact lt_of_lt_of_le (mul_self_pos.2 hvne) hle

theorem cosineSimilarity_self (x : List ℝ) (h : ∃ v ∈ x, v ≠ 0) :
    cosineSimilarity x x = 1 := by
  have hd := dotProduct_self_pos x h
  unfold cosineSimilarity l2norm
  rw [Real.mul_self_sqrt hd.le, div_self hd.ne']

/-- C6: the similarity scorer computes `cos(x,y)/temp` pairwise over all row
pairs, yielding a `(len x, len y)` matrix, and its diagonal on `sim(x,x)` is
`1/temp` at every row with a nonzero entry. -/
theorem similarity_pairwise_matrix_and_self_diagonal
    (temp : ℝ) (x y : List (List ℝ)) :
    (simMatrix temp x y).length = x.length
    ∧ (∀ i, i < x.length → ((simMatrix temp x y).getD i []).length = y.length)
    ∧ (∀ i j, i < x.length → j < y.length →
        ((simMatrix temp x y).getD i []).getD j 0
          = cosineSimilarity (x.getD i []) (y.getD j []) / temp)
    ∧ (∀ i, i < x.length → (∃ v ∈ x.getD i [], v ≠ 0) →
        ((simMatrix temp x x).getD i []).getD i 0 = 1 / temp) := by
  refine ⟨by simp [simMatrix], ?_, ?_, ?_⟩
  · intro i hi
    rw [simMatrix, getD_map_eq _ _ _ _ hi]
    simp
  · intro i j hi hj
    rw [simMatrix, getD_map_eq _ _ _ _ hi, getD_map_eq _ _ _ _ hj,
      List.getD_eq_getElem _ _ hi, List.getD_eq_getElem _ _ hj]
    rfl
  · intro i hi hv
    rw [List.getD_eq_getElem _ _ hi] at hv
    rw [simMatrix, getD_map_eq _ _ _ _ hi, getD_map_eq _ _ _ _ hi]
    rw [Similarity.forward, cosineSimilarity_self _ hv]

/-- Witness for C6 at a concrete input: `x = [[3, 4]]`, `temp = 2`. -/
theorem similarity_pairwise_matrix_and_self_diagonal_witness :
    ((simMatrix 2 [[(3:ℝ), 4]] [[(3:ℝ), 4]]).getD 0 []).getD 0 0 = 1 / 2 := by
  have h := similarity_pairwise_matrix_and_self_diagonal 2 [[(3:ℝ), 4]] [[(3:ℝ), 4]]
  exact h.2.2.2 0 (by simp) ⟨3, by simp, by norm_num⟩

/-- The fixed set of pooling modes accepted by `Pooler.__init__`
(models.py line 61). -/
def validPoolerTypes : List String :=
  ["cls", "cls_before_pooler", "avg", "avg_top2", "avg_first_last"]

/-- A constructed pooler: just its immutable mode string
(models.py lines 58-60). -/
structure Pooler where
  pooler_type : String

/-- Models `Pooler.__init__` (models.py lines 58-61): the `assert` on the
mode string either lets construction succeed or raises at construction time,
modelled as `Except` with the assertion message. -/
def Pooler.init (pooler_type : String) : Except String Pooler :=
  if pooler_type ∈ validPoolerTypes then Except.ok ⟨pooler_type⟩
  else Except.error ("unrecognized pooling type " ++ pooler_type)

/-- C9: constructing a Pooler succeeds exactly on the five enumerated mode
strings and fails with a configuration error on every other string, at
construction time. -/
theorem pooler_init_validates_mode (pt : String) :
    (pt ∈ validPoolerTypes → Pooler.init pt = Except.ok ⟨pt⟩)
    ∧ (pt ∉ validPoolerTypes →
        Pooler.init pt = Except.error ("unrecognized pooling type " ++ pt))
    ∧ ((∃ p, Pooler.init pt = Except.ok p) ↔ pt ∈ validPoolerTypes) := by
  refine ⟨fun h => by simp [Pooler.init, h], fun h => by simp [Pooler.init, h], ?_⟩
  constructor
  · rintro ⟨p, hp⟩
    by_contra hmem
    simp [Pooler.init, hmem] at hp
  · intro h
    exact ⟨⟨pt⟩, by simp [Pooler.init, h]⟩

/-- Witness for C9: `"cls"` is accepted, `"mean"` is rejected. -/
theorem pooler_init_validates_mode_witness :
    Pooler.init "cls" = Except.ok ⟨"cls"⟩
    ∧ Pooler.init "mean" = Except.error ("unrecognized pooling type " ++ "mean") := by
  exact ⟨(pooler_init_validates_mode "cls").1 (by simp [validPoolerTypes]),
    (pooler_init_validates_mode "mean").2.1 (by simp [validPoolerTypes])⟩

/-- Models the projection-head application in the contrastive path
(models.py lines 160-161): `if cls.pooler_type == "cls":
pooler_output = cls.mlp(pooler_output)`. -/
def clApplyHead {α : Type _} (pooler_type : String) (mlp : α → α) (pooled : α) : α :=
  if pooler_type = "cls" then mlp pooled else pooled

/-- Models the projection-head application in the sentence-embedding path
(models.py lines 430-431): `if cls.pooler_type == "cls" and
not cls.model_args.mlp_only_train: pooler_output = cls.mlp(pooler_output)`. -/
def sentembApplyHead {α : Type _} (pooler_type : String) (mlp_only_train : Bool)
    (mlp : α → α) (pooled : α) : α :=
  if pooler_type = "cls" ∧ mlp_only_train = false then mlp pooled else pooled

/-- C4: the training path applies the projection head exactly under mode
`cls`; the inference path applies it under `cls` only when the skip flag
(`mlp_only_train`) is not set; under any other mode neither path applies it. -/
theorem projection_head_policy {α : Type _} (mlp : α → α) (pooled : α) :
    clApplyHead "cls" mlp pooled = mlp pooled
    ∧ (∀ pt, pt ≠ "cls" → clApplyHead pt mlp pooled = pooled)
    ∧ sentembApplyHead "cls" false mlp pooled = mlp pooled
    ∧ sentembApplyHead "cls" true mlp pooled = pooled
    ∧ (∀ pt b, pt ≠ "cls" → sentembApplyHead pt b mlp pooled = pooled) := by
  refine ⟨by simp [clApplyHead], fun pt h => by simp [clApplyHead, h],
    by simp [sentembApplyHead], by simp [sentembApplyHead],
    fun pt b h => by simp [sentembApplyHead, h]⟩

/-- Witness for C4 at a concrete input: mode `"avg"` applies the head on
neither path, mode `"cls"` applies it on the training path. -/
theorem projection_head_policy_witness :
    clApplyHead "cls" (fun n => n + 1) 0 = 1
    ∧ clApplyHead "avg" (fun n => n + 1) 0 = 0
    ∧ sentembApplyHead "avg" false (fun n => n + 1) 0 = 0 := by
  have h := projection_head_policy (fun n => n + 1) 0
  exact ⟨h.1, h.2.1 "avg" (by decide), h.2.2.2.2 "avg" false (by decide)⟩

/-- Models the MLM auxiliary-loss assembly of `cl_forward`: the second
encoder pass runs only when `mlm_input_ids` is present (models.py lines
140-152, giving `mlm_outputs`), and the MLM term is added only when both
`mlm_outputs` and `mlm_labels` are present (models.py lines 383-387):
`loss = loss + cls.model_args.mlm_weight * masked_lm_loss`. -/
noncomputable def clTotalLoss {μ σ ν : Type _} (contrastive mlm_weight : ℝ)
    (encode : μ → σ) (mlmLossOf : σ → ν → ℝ)
    (mlm_input_ids : Option μ) (mlm_labels : Option ν) : ℝ :=
  match mlm_input_ids.map encode, mlm_labels with
  | some out, some lbls => contrastive + mlm_weight * mlmLossOf out lbls
  | _, _ => contrastive

/-- C8: with both MLM inputs and labels present the total loss is the
contrastive loss plus `mlm_weight` times the MLM loss; with either absent
the MLM term is skipped and the total is the contrastive loss alone. -/
theorem total_loss_mlm_combination {μ σ ν : Type _} (c w : ℝ)
    (encode : μ → σ) (mlmLossOf : σ → ν → ℝ) :
    (∀ ids lbls, clTotalLoss c w encode mlmLossOf (some ids) (some lbls)
        = c + w * mlmLossOf (encode ids) lbls)
    ∧ (∀ lbls, clTotalLoss c w encode mlmLossOf none lbls = c)
    ∧ (∀ ids, clTotalLoss c w encode mlmLossOf ids none = c) := by
  refine ⟨fun ids lbls => rfl, fun lbls => ?_, fun ids => ?_⟩
  · cases lbls <;> rfl
  · cases ids <;> rfl

/-- Models the label construction of `cl_forward` (models.py line 269):
`labels = torch.arange(cos_sim.size(0)).long()`. The caller-supplied
`labels` argument of `cl_forward` is taken as a parameter and, as in the
source, shadowed by the arange construction. -/
def clLabelsUsed (caller_labels : Option (List ℕ)) (cos_sim : List (List ℝ)) :
    List ℕ :=
  List.range cos_sim.length

/-- C3: the labels used for the cross-entropy loss are exactly
`[0, 1, ..., N-1]` for `N` the similarity matrix's row count, independent of
any caller-supplied label tensor. -/
theorem labels_are_arange (caller_labels : Option (List ℕ))
    (cos_sim : List (List ℝ)) :
    clLabelsUsed caller_labels cos_sim = List.range cos_sim.length
    ∧ (clLabelsUsed caller_labels cos_sim).length = cos_sim.length
    ∧ (∀ i, i < cos_sim.length →
        (clLabelsUsed caller_labels cos_sim).getD i 0 = i)
    ∧ (∀ other, clLabelsUsed caller_labels cos_sim
        = clLabelsUsed other cos_sim) := by
  refine ⟨rfl, by simp [clLabelsUsed], fun i hi => ?_, fun other => rfl⟩
  rw [clLabelsUsed, List.getD_eq_getElem _ _ (by simpa using hi)]
  simp

/-- Witness for C3 at a concrete matrix with 2 rows. -/
theorem labels_are_arange_witness :
    clLabelsUsed (some [7, 7]) [[(1:ℝ)], [0]] = List.range 2
    ∧ (clLabelsUsed (some [7, 7]) [[(1:ℝ)], [0]]).getD 1 0 = 1 := by
  have h := labels_are_arange (some [7, 7]) [[(1:ℝ)], [0]]
  exact ⟨h.1, h.2.2.1 1 (by simp)⟩

/-- Models the per-tensor slot list of the all-gather block of `cl_forward`
(models.py lines 171-193) for one embedding tensor.  A tensor is a list of
per-instance rows; each row carries a Bool recording whether a gradient path
to the current worker's parameters exists.  `world r` is the row list of
rank `r`'s local tensor; `dist.all_gather` fills the slot list with detached
copies (grad flag `false`), and `z_list[dist.get_rank()] = z` overwrites the
current rank's slot with the original local tensor `z` (grad flags kept). -/
def allGatherSlots {α : Type _} (world_size rank : ℕ) (world : ℕ → List α)
    (z : List (α × Bool)) : List (List (α × Bool)) :=
  ((List.range world_size).map (fun r => (world r).map (fun v => (v, false)))).set rank z

/-- Models `torch.cat(z_list, 0)` over the gathered slots (models.py
lines 177, 192-193): concatenation along the batch dimension in increasing
rank order. -/
def allGatherCat {α : Type _} (world_size rank : ℕ) (world : ℕ → List α)
    (z : List (α × Bool)) : List (α × Bool) :=
  (allGatherSlots world_size rank world z).flatten

/-- Models the guard `if dist.is_initialized() and cls.training:`
(models.py line 171): the gather runs only when the distributed group is
active and the model is training; otherwise the local tensor is unchanged. -/
def maybeGather {α : Type _} (dist_active training : Bool)
    (world_size rank : ℕ) (world : ℕ → List α) (z : List (α × Bool)) :
    List (α × Bool) :=
  if dist_active && training then allGatherCat world_size rank world z else z

theorem allGatherSlots_eq {α : Type _} (world_size rank : ℕ)
    (world : ℕ → List α) (z : List (α × Bool)) (h : rank < world_size) :
    allGatherSlots world_size rank world z
      = (List.range world_size).map
          (fun r => if r = rank then z else (world r).map (fun v => (v, false))) := by
  apply List.ext_getElem
  · simp [allGatherSlots]
  · intro i h1 h2
    have hi : i < world_size := by simpa [allGatherSlots] using h1
    simp only [allGatherSlots]
    rw [List.getElem_set]
    simp only [List.getElem_map, List.getElem_range]
    by_cases hir : rank = i
    · simp [hir]
    · rw [if_neg hir, if_neg (fun hh : i = rank => hir hh.symm)]

theorem flatten_drop_take {α : Type _} (L : List (List α)) (B : ℕ)
    (hB : ∀ l ∈ L, l.length = B) :
    ∀ r, r < L.length → ((L.flatten).drop (r * B)).take B = L.getD r [] := by
  induction L with
  | nil => intro r hr; simp at hr
  | cons l T ih =>
    intro r hr
    have hl : l.length = B := hB l (by simp)
    cases r with
    | zero =>
      simp only [Nat.zero_mul, List.flatten_cons, List.drop_zero, List.getD]
      rw [List.take_left' hl]
      rfl
    | succ r =>
      have hstep : (r + 1) * B = l.length + r * B := by rw [hl]; ring
      rw [List.flatten_cons, hstep, List.drop_append]
      exact ih (fun x hx => hB x (by simp [hx])) r (by simpa using hr)

theorem flatten_getElem?_of_uniform {α : Type _} (L : List (List α)) (B : ℕ)
    (hB : ∀ l ∈ L, l.length = B) (r i : ℕ) (hr : r < L.length) (hi : i < B) :
    (L.flatten)[r * B + i]? = (L.getD r [])[i]? := by
  have hseg := flatten_drop_take L B hB r hr
  calc (L.flatten)[r * B + i]?
      = ((L.flatten).drop (r * B))[i]? := by
        rw [List.getElem?_drop]
    _ = (((L.flatten).drop (r * B)).take B)[i]? := by
        rw [List.getElem?_take_of_lt hi]
    _ = (L.getD r [])[i]? := by rw [hseg]

theorem allGatherSlots_getD {α : Type _} (world_size rank : ℕ)
    (world : ℕ → List α) (z : List (α × Bool)) (r : ℕ)
    (hrank : rank < world_size) (hr : r < world_size) :
    (allGatherSlots world_size rank world z).getD r []
      = if r = rank then z else (world r).map (fun v => (v, false)) := by
  rw [allGatherSlots_eq _ _ _ _ hrank, getD_map_eq _ _ _ _ (by simpa using hr)]
  simp

theorem allGatherSlots_uniform_len {α : Type _} (world_size rank B : ℕ)
    (world : ℕ → List α) (z : List (α × Bool))
    (hrank : rank < world_size)
    (hB : ∀ r, r < world_size → (world r).length = B) (hlen : z.length = B) :
    ∀ l ∈ allGatherSlots world_size rank world z, l.length = B := by
  intro l hl
  rw [allGatherSlots_eq _ _ _ _ hrank] at hl
  rcases List.mem_map.1 hl with ⟨r, hrmem, rfl⟩
  have hr : r < world_size := List.mem_range.1 hrmem
  by_cases hcase : r = rank
  · simp [hcase, hlen]
  · simp [hcase, hB r hr]

/-- C2: with the distributed group active in training mode, the gathered
global tensor places rank `r`'s local instance `i` at global row `r*B + i`;
the segment at the current rank is the original (gradient-carrying) local
tensor while every other rank's segment is a detached copy; and with the
group not active (or not training) the gather is skipped and the local
tensor is returned unchanged. -/
theorem gather_globalizes_in_rank_order {α : Type _}
    (world_size rank B : ℕ) (world : ℕ → List α) (z : List (α × Bool))
    (hrank : rank < world_size)
    (hB : ∀ r, r < world_size → (world r).length = B)
    (hlen : z.length = B) (hval : z.map Prod.fst = world rank) :
    (∀ r i, r < world_size → i < B →
      ((maybeGather true true world_size rank world z).map Prod.fst)[r * B + i]?
        = (world r)[i]?)
    ∧ ((maybeGather true true world_size rank world z).drop (rank * B)).take B = z
    ∧ (∀ r, r < world_size → r ≠ rank →
        ((maybeGather true true world_size rank world z).drop (r * B)).take B
          = (world r).map (fun v => (v, false)))
    ∧ (∀ d t, d = false ∨ t = false →
        maybeGather d t world_size rank world z = z) := by
  have hmg : maybeGather true true world_size rank world z
      = (allGatherSlots world_size rank world z).flatten := rfl
  have hslotlen : (allGatherSlots world_size rank world z).length = world_size := by
    simp [allGatherSlots]
  have huni := allGatherSlots_uniform_len world_size rank B world z hrank hB hlen
  refine ⟨?_, ?_, ?_, ?_⟩
  · intro r i hr hi
    rw [hmg, List.getElem?_map,
      flatten_getElem?_of_uniform _ B huni r i (by rwa [hslotlen]) hi,
      allGatherSlots_getD _ _ _ _ _ hrank hr]
    by_cases hcase : r = rank
    · rw [if_pos hcase, ← List.getElem?_map, hval, hcase]
    · rw [if_neg hcase, List.getElem?_map]
      cases (world r)[i]? <;> rfl
  · rw [hmg, flatten_drop_take _ B huni rank (by rwa [hslotlen]),
      allGatherSlots_getD _ _ _ _ _ hrank hrank, if_pos rfl]
  · intro r hr hne
    rw [hmg, flatten_drop_take _ B huni r (by rwa [hslotlen]),
      allGatherSlots_getD _ _ _ _ _ hrank hr, if_neg hne]
  · intro d t hdt
    rcases hdt with h | h <;> simp [maybeGather, h]

/-- Witness for C2 at a concrete two-worker world: `B = 1`, `rank = 0`,
`world r = [r + 10]`, local tensor `[(10, true)]`. -/
theorem gather_globalizes_in_rank_order_witness :
    ((maybeGather true true 2 0 (fun r => [r + 10]) [(10, true)]).map
        Prod.fst)[1 * 1 + 0]? = ([1 + 10] : List ℕ)[0]?
    ∧ ((maybeGather true true 2 0 (fun r => [r + 10]) [(10, true)]).drop
        (0 * 1)).take 1 = [(10, true)]
    ∧ ((maybeGather true true 2 0 (fun r => [r + 10]) [(10, true)]).drop
        (1 * 1)).take 1 = ([1 + 10] : List ℕ).map (fun v => (v, false))
    ∧ maybeGather false true 2 0 (fun r => [r + 10]) [(10, true)]
        = [(10, true)] := by
  have h := gather_globalizes_in_rank_order 2 0 1 (fun r => [r + 10])
    [(10, true)] (by decide) (fun r _ => rfl) rfl rfl
  exact ⟨h.1 1 0 (by decide) (by decide), h.2.1,
    h.2.2.1 1 (by decide) (by decide), h.2.2.2 false true (Or.inl rfl)⟩

/-- Models `tensor.size(-1)` for a list-of-rows matrix: the length of the
first row (all rows of a well-formed tensor have the same length). -/
def size1 (m : List (List ℝ)) : ℕ := (m.headD []).length

/-- Elementwise matrix addition, modelling `cos_sim + weights`
(models.py line 318). -/
def matAdd (a b : List (List ℝ)) : List (List ℝ) :=
  List.zipWith (List.zipWith (fun u v => u + v)) a b

/-- Models `cos_sim = torch.cat([cos_sim, z1_z3_cos], 1)` (models.py lines
197, 200, 238): the z1-z2 similarity matrix with the z1-z3 similarity
matrix appended along the column axis. -/
noncomputable def catCosSim (temp : ℝ) (z1 z2 z3 : List (List ℝ)) :
    List (List ℝ) :=
  List.zipWith (fun r s => r ++ s) (simMatrix temp z1 z2) (simMatrix temp z1 z3)

/-- Models the `weights` tensor of `cl_forward` (models.py lines 315-317):
row `i` is `[0.0] * (cos_sim.size(-1) - z1_z3_cos.size(-1)) + [0.0] * i +
[z3_weight] + [0.0] * (z1_z3_cos.size(-1) - i - 1)`, for `i` in
`range(z1_z3_cos.size(-1))`. -/
def hnWeights (z3_weight : ℝ) (cosCols z13Cols : ℕ) : List (List ℝ) :=
  (List.range z13Cols).map (fun i =>
    List.replicate (cosCols - z13Cols) 0
      ++ (List.replicate i 0 ++ ([z3_weight] ++ List.replicate (z13Cols - i - 1) 0)))

/-- Models `cos_sim = cos_sim + weights` (models.py line 318) in the
hard-negative branch, with both `size(-1)` arguments read off the matrices
as in the source. -/
noncomputable def biasedCosSim (temp z3_weight : ℝ) (z1 z2 z3 : List (List ℝ)) :
    List (List ℝ) :=
  matAdd (catCosSim temp z1 z2 z3)
    (hnWeights z3_weight (size1 (catCosSim temp z1 z2 z3))
      (size1 (simMatrix temp z1 z3)))

/-- Per-example softmax cross-entropy of one row of unnormalized scores
against one class index: `log (Σ exp) - score[label]`. -/
noncomputable def rowCE (row : List ℝ) (label : ℕ) : ℝ :=
  Real.log ((row.map Real.exp).sum) - row.getD label 0

/-- Models `nn.CrossEntropyLoss()` with its default mean reduction
(models.py lines 270, 374). -/
noncomputable def crossEntropyLoss (scores : List (List ℝ)) (labels : List ℕ) : ℝ :=
  (List.zipWith rowCE scores labels).sum / (scores.length : ℝ)

/-- Models `labels = torch.arange(cos_sim.size(0)).long()` (models.py line
269); `cos_sim` at that point is the concatenated pre-bias matrix. -/
def clLabels (cos_sim : List (List ℝ)) : List ℕ := List.range cos_sim.length

/-- The loss/logits pair returned by `cl_forward`, modelling
`SequenceClassifierOutput(loss=loss, logits=cos_sim, ...)` (models.py lines
392-397). -/
structure SequenceClassifierOutput where
  loss : ℝ
  logits : List (List ℝ)

/-- Models the hard-negative (`num_sent == 3`) loss assembly of `cl_forward`
on pooled, gathered embeddings `z1 z2 z3`: concatenated similarity matrix,
bias `weights` added, arange labels, cross-entropy loss; dict return path. -/
noncomputable def clForwardHN (temp z3_weight : ℝ) (z1 z2 z3 : List (List ℝ)) :
    SequenceClassifierOutput :=
  { loss := crossEntropyLoss (biasedCosSim temp z3_weight z1 z2 z3)
      (clLabels (catCosSim temp z1 z2 z3)),
    logits := biasedCosSim temp z3_weight z1 z2 z3 }

/-- Models the tuple return path `return ((loss,) + output)` with
`output = (cos_sim,) + outputs[2:]` (models.py lines 389-391). -/
noncomputable def clForwardHNTuple (temp z3_weight : ℝ)
    (z1 z2 z3 : List (List ℝ)) : ℝ × List (List ℝ) :=
  ((clForwardHN temp z3_weight z1 z2 z3).loss,
   (clForwardHN temp z3_weight z1 z2 z3).logits)

theorem catCosSim_length (temp : ℝ) (z1 z2 z3 : List (List ℝ)) :
    (catCosSim temp z1 z2 z3).length = z1.length := by
  simp [catCosSim, simMatrix]

theorem catCosSim_getD (temp : ℝ) (z1 z2 z3 : List (List ℝ)) (i : ℕ)
    (hi : i < z1.length) :
    (catCosSim temp z1 z2 z3).getD i []
      = z2.map (fun yj => Similarity.forward temp (z1.getD i []) yj)
        ++ z3.map (fun yj => Similarity.forward temp (z1.getD i []) yj) := by
  have hlen : i < (catCosSim temp z1 z2 z3).length := by
    rwa [catCosSim_length]
  rw [List.getD_eq_getElem _ _ hlen]
  simp only [catCosSim, List.getElem_zipWith]
  simp [simMatrix, List.getElem?_eq_getElem hi]

theorem catCosSim_row_length (temp : ℝ) (z1 z2 z3 : List (List ℝ)) :
    ∀ r ∈ catCosSim temp z1 z2 z3, r.length = z2.length + z3.length := by
  intro r hr
  rcases List.mem_iff_getElem.1 hr with ⟨i, hi, rfl⟩
  have hi1 : i < z1.length := by
    rw [catCosSim_length] at hi
    exact hi
  rw [← List.getD_eq_getElem _ [] hi, catCosSim_getD temp z1 z2 z3 i hi1]
  simp

theorem size1_simMatrix_cons (temp : ℝ) (a : List ℝ) (t z3 : List (List ℝ)) :
    size1 (simMatrix temp (a :: t) z3) = z3.length := by
  simp [size1, simMatrix]

theorem size1_catCosSim_cons (temp : ℝ) (a : List ℝ) (t z2 z3 : List (List ℝ)) :
    size1 (catCosSim temp (a :: t) z2 z3) = z2.length + z3.length := by
  simp [size1, catCosSim, simMatrix]

theorem hnWeights_length (w : ℝ) (m k : ℕ) : (hnWeights w m k).length = k := by
  simp [hnWeights]

theorem hnWeights_getD (w : ℝ) (m k i : ℕ) (hik : i < k) :
    (hnWeights w m k).getD i []
      = List.replicate ((m - k) + i) 0 ++ w :: List.replicate (k - i - 1) 0 := by
  rw [hnWeights, getD_map_eq _ _ _ _ (by simpa using hik)]
  rw [List.getElem_range, ← List.append_assoc, List.append_replicate_replicate]
  rfl

theorem hnWeights_row_length (w : ℝ) (m k i : ℕ) (hik : i < k) (hkm : k ≤ m) :
    ((hnWeights w m k).getD i []).length = m := by
  rw [hnWeights_getD w m k i hik]
  simp
  omega

theorem getD_replicate_mid (x : ℝ) (a b j : ℕ) (hj : j < a + 1 + b) :
    (List.replicate a (0:ℝ) ++ x :: List.replicate b 0).getD j 0
      = if j = a then x else 0 := by
  rw [List.getD_eq_getElem?_getD, List.getElem?_append]
  simp only [List.length_replicate]
  by_cases hja : j < a
  · rw [if_pos hja, if_neg (by omega)]
    simp [hja]
  · rw [if_neg hja]
    by_cases heq : j = a
    · subst heq
      simp
    · have h1 : j - a = (j - a - 1) + 1 := by omega
      rw [if_neg heq, h1]
      simp only [List.getElem?_cons_succ]
      have h2 : j - a - 1 < b := by omega
      simp [h2]

theorem matAdd_getD (A B : List (List ℝ)) (i j : ℕ) (hiA : i < A.length)
    (hiB : i < B.length) (hjA : j < (A.getD i []).length)
    (hjB : j < (B.getD i []).length) :
    ((matAdd A B).getD i []).getD j 0
      = (A.getD i []).getD j 0 + (B.getD i []).getD j 0 := by
  have hi : i < (matAdd A B).length := by
    simp only [matAdd, List.length_zipWith]
    omega
  rw [List.getD_eq_getElem _ _ hi]
  have hz : (matAdd A B)[i]
      = List.zipWith (fun u v => u + v) (A.getD i []) (B.getD i []) := by
    simp only [matAdd, List.getElem_zipWith]
    rw [List.getD_eq_getElem _ _ hiA, List.getD_eq_getElem _ _ hiB]
  rw [hz]
  have hjz : j < (List.zipWith (fun u v : ℝ => u + v)
      (A.getD i []) (B.getD i [])).length := by
    simp only [List.length_zipWith]
    omega
  rw [List.getD_eq_getElem _ _ hjz, List.getElem_zipWith,
    List.getD_eq_getElem _ _ hjA, List.getD_eq_getElem _ _ hjB]

theorem zipWith_add_replicate_zero (r : List ℝ) : ∀ m, r.length ≤ m →
    List.zipWith (fun u v => u + v) r (List.replicate m 0) = r := by
  induction r with
  | nil => intro m _; simp
  | cons a t ih =>
    intro m hm
    cases m with
    | zero => simp at hm
    | succ m' =>
      rw [List.replicate_succ]
      simp only [List.zipWith_cons_cons]
      rw [add_zero, ih m' (by simpa using hm)]

theorem hnWeights_zero (m k : ℕ) (hkm : k ≤ m) :
    hnWeights 0 m k = List.replicate k (List.replicate m 0) := by
  apply List.ext_getElem
  · simp [hnWeights]
  · intro i h1 h2
    have hik : i < k := by simpa [hnWeights] using h1
    rw [← List.getD_eq_getElem _ [] h1, hnWeights_getD 0 m k i hik,
      List.getElem_replicate]
    calc List.replicate (m - k + i) (0:ℝ) ++ 0 :: List.replicate (k - i - 1) 0
        = List.replicate (m - k + i) (0:ℝ)
            ++ List.replicate (k - i - 1 + 1) 0 := by rw [List.replicate_succ]
      _ = List.replicate (m - k + i + (k - i - 1 + 1)) 0 :=
          List.append_replicate_replicate
      _ = List.replicate m 0 := by congr 1; omega

theorem matAdd_replicate_zero (s : List (List ℝ)) : ∀ k m, s.length ≤ k →
    (∀ r ∈ s, r.length ≤ m) →
    matAdd s (List.replicate k (List.replicate m 0)) = s := by
  induction s with
  | nil => intro k m _ _; simp [matAdd]
  | cons r t ih =>
    intro k m hk hm
    cases k with
    | zero => simp at hk
    | succ k' =>
      rw [List.replicate_succ]
      simp only [matAdd, List.zipWith_cons_cons]
      rw [zipWith_add_replicate_zero r m (hm r (by simp))]
      have hrest := ih k' m (by simpa using hk) (fun x hx => hm x (by simp [hx]))
      rw [matAdd] at hrest
      rw [hrest]

/-- C1: with a hard-negative view, the bias `weights` matrix has shape
`(N, 2N)` for `N` the similarity matrix's row count, is zero everywhere
except entry `(i, N + i)` which holds the configured
`hard_negative_weight`, and the loss is computed on the similarity matrix
with this bias added. -/
theorem hard_negative_bias_matrix (w : ℝ) (n : ℕ) :
    (hnWeights w (2 * n) n).length = n
    ∧ (∀ i, i < n → ((hnWeights w (2 * n) n).getD i []).length = 2 * n)
    ∧ (∀ i j, i < n → j < 2 * n →
        ((hnWeights w (2 * n) n).getD i []).getD j 0
          = if j = n + i then w else 0)
    ∧ (∀ temp z1 z2 z3, (clForwardHN temp w z1 z2 z3).loss
        = crossEntropyLoss
            (matAdd (catCosSim temp z1 z2 z3)
              (hnWeights w (size1 (catCosSim temp z1 z2 z3))
                (size1 (simMatrix temp z1 z3))))
            (clLabels (catCosSim temp z1 z2 z3))) := by
  refine ⟨hnWeights_length w _ _,
    fun i hi => hnWeights_row_length w _ _ i hi (by omega),
    fun i j hi hj => ?_, fun temp z1 z2 z3 => rfl⟩
  have hmk : 2 * n - n + i = n + i := by omega
  rw [hnWeights_getD w _ _ i hi,
    getD_replicate_mid w (2 * n - n + i) (n - i - 1) j (by omega), hmk]

/-- Witness for C1 at `w = 5`, `N = 2`: entry `(0, 2)` is `5`, entry
`(0, 1)` is `0`, row `0` has length `4`. -/
theorem hard_negative_bias_matrix_witness :
    ((hnWeights (5:ℝ) (2 * 2) 2).getD 0 []).getD 2 0 = 5
    ∧ ((hnWeights (5:ℝ) (2 * 2) 2).getD 0 []).getD 1 0 = 0
    ∧ ((hnWeights (5:ℝ) (2 * 2) 2).getD 0 []).length = 2 * 2 := by
  have h := hard_negative_bias_matrix (5:ℝ) 2
  refine ⟨?_, ?_, h.2.1 0 (by decide)⟩
  · rw [h.2.2.1 0 2 (by decide) (by decide)]
    simp
  · rw [h.2.2.1 0 1 (by decide) (by decide)]
    simp

/-- C5: with a hard negative present and `hard_negative_weight = 0`, the
computed loss equals the loss on the concatenated similarity matrix with no
bias added at all: the weight-0 bias matrix is a true no-op. -/
theorem zero_weight_bias_is_noop (temp : ℝ) (z1 z2 z3 : List (List ℝ))
    (hne : z1 ≠ []) (h2 : z2.length = z1.length) (h3 : z3.length = z1.length) :
    (clForwardHN temp 0 z1 z2 z3).loss
      = crossEntropyLoss (catCosSim temp z1 z2 z3)
          (clLabels (catCosSim temp z1 z2 z3)) := by
  have hbias : biasedCosSim temp 0 z1 z2 z3 = catCosSim temp z1 z2 z3 := by
    obtain ⟨a, t, rfl⟩ := List.exists_cons_of_ne_nil hne
    rw [biasedCosSim, size1_catCosSim_cons, size1_simMatrix_cons,
      hnWeights_zero _ _ (by omega)]
    exact matAdd_replicate_zero _ _ _
      (by rw [catCosSim_length]; exact h3.ge)
      (fun r hr => le_of_eq (catCosSim_row_length _ _ _ _ r hr))
  simp only [clForwardHN]
  rw [hbias]

/-- Witness for C5 at the concrete input `temp = 1`, `z1 = z2 = z3 = [[1]]`. -/
theorem zero_weight_bias_is_noop_witness :
    (clForwardHN 1 0 [[(1:ℝ)]] [[(1:ℝ)]] [[(1:ℝ)]]).loss
      = crossEntropyLoss (catCosSim 1 [[(1:ℝ)]] [[(1:ℝ)]] [[(1:ℝ)]])
          (clLabels (catCosSim 1 [[(1:ℝ)]] [[(1:ℝ)]] [[(1:ℝ)]])) :=
  zero_weight_bias_is_noop 1 [[(1:ℝ)]] [[(1:ℝ)]] [[(1:ℝ)]] (by simp) rfl rfl

/-- C10: in the hard-negative case, the logits returned by both the dict
path and the tuple path are the bias-added similarity matrix, and with a
nonzero weight the returned hard-negative diagonal entry differs from the
raw pre-bias matrix. -/
theorem returned_logits_are_post_bias (temp w : ℝ) (z1 z2 z3 : List (List ℝ))
    (hne : z1 ≠ []) (h2 : z2.length = z1.length) (h3 : z3.length = z1.length) :
    (clForwardHN temp w z1 z2 z3).logits
        = matAdd (catCosSim temp z1 z2 z3)
            (hnWeights w (z1.length + z1.length) z1.length)
    ∧ (clForwardHNTuple temp w z1 z2 z3).2
        = matAdd (catCosSim temp z1 z2 z3)
            (hnWeights w (z1.length + z1.length) z1.length)
    ∧ (∀ i, i < z1.length → w ≠ 0 →
        ((clForwardHN temp w z1 z2 z3).logits.getD i []).getD (z1.length + i) 0
          ≠ ((catCosSim temp z1 z2 z3).getD i []).getD (z1.length + i) 0) := by
  have hb : biasedCosSim temp w z1 z2 z3
      = matAdd (catCosSim temp z1 z2 z3)
          (hnWeights w (z1.length + z1.length) z1.length) := by
    obtain ⟨a, t, rfl⟩ := List.exists_cons_of_ne_nil hne
    rw [biasedCosSim, size1_catCosSim_cons, size1_simMatrix_cons, h2, h3]
  refine ⟨hb, hb, ?_⟩
  intro i hi hw
  have hiA : i < (catCosSim temp z1 z2 z3).length := by
    rw [catCosSim_length]; exact hi
  have hiB : i < (hnWeights w (z1.length + z1.length) z1.length).length := by
    rw [hnWeights_length]; exact hi
  have hrowA : ((catCosSim temp z1 z2 z3).getD i []).length
      = z2.length + z3.length := by
    apply catCosSim_row_length
    rw [List.getD_eq_getElem _ _ hiA]
    exact List.getElem_mem hiA
  have hjA : z1.length + i < ((catCosSim temp z1 z2 z3).getD i []).length := by
    rw [hrowA, h2, h3]; omega
  have hrowB := hnWeights_row_length w (z1.length + z1.length) z1.length i hi
    (by omega)
  have hjB : z1.length + i
      < ((hnWeights w (z1.length + z1.length) z1.length).getD i []).length := by
    rw [hrowB]; omega
  have hentry := matAdd_getD (catCosSim temp z1 z2 z3)
    (hnWeights w (z1.length + z1.length) z1.length) i (z1.length + i)
    hiA hiB hjA hjB
  have hwentry : ((hnWeights w (z1.length + z1.length) z1.length).getD i
      []).getD (z1.length + i) 0 = w := by
    rw [hnWeights_getD w _ _ i hi,
      getD_replicate_mid w _ _ _ (by omega), if_pos (by omega)]
  have hlog : (clForwardHN temp w z1 z2 z3).logits
      = matAdd (catCosSim temp z1 z2 z3)
          (hnWeights w (z1.length + z1.length) z1.length) := hb
  rw [hlog, hentry, hwentry]
  intro hcontra
  exact hw (by linarith)

/-- Witness for C10 at `temp = 1`, `w = 5`, `z1 = z2 = z3 = [[1]]`. -/
theorem returned_logits_are_post_bias_witness :
    (clForwardHN 1 5 [[(1:ℝ)]] [[(1:ℝ)]] [[(1:ℝ)]]).logits
        = matAdd (catCosSim 1 [[(1:ℝ)]] [[(1:ℝ)]] [[(1:ℝ)]])
            (hnWeights 5 (1 + 1) 1)
    ∧ ((clForwardHN 1 5 [[(1:ℝ)]] [[(1:ℝ)]] [[(1:ℝ)]]).logits.getD 0
          []).getD (1 + 0) 0
        ≠ ((catCosSim 1 [[(1:ℝ)]] [[(1:ℝ)]] [[(1:ℝ)]]).getD 0 []).getD
            (1 + 0) 0 := by
  have h := returned_logits_are_post_bias 1 5 [[(1:ℝ)]] [[(1:ℝ)]] [[(1:ℝ)]]
    (by simp) rfl rfl
  exact ⟨h.1, h.2.2 0 (by decide) (by norm_num)⟩

/-- Columnwise sum of a `(seq_len, hidden)` list of rows, modelling
`.sum(1)` for one batch element; `hidden` is the common row width. -/
def colSum (hidden : ℕ) (rows : List (List ℝ)) : List ℝ :=
  rows.foldr (List.zipWith (fun u v => u + v)) (List.replicate hidden 0)

/-- Models `avg` pooling for one batch element (models.py line 71):
`(last_hidden * attention_mask.unsqueeze(-1)).sum(1) /
attention_mask.sum(-1).unsqueeze(-1)` — each token's hidden row is scaled
by its mask value, the rows are summed over the sequence dimension, and the
result is divided elementwise by the mask sum. -/
noncomputable def avgPool (hidden : ℕ) (attention_mask : List ℝ)
    (last_hidden : List (List ℝ)) : List ℝ :=
  (colSum hidden (List.zipWith (fun m row => row.map (fun v => v * m))
      attention_mask last_hidden)).map (fun s => s / attention_mask.sum)

theorem colSum_cons (hidden : ℕ) (x : List ℝ) (l : List (List ℝ)) :
    colSum hidden (x :: l) = List.zipWith (fun u v => u + v) x (colSum hidden l) :=
  rfl

theorem colSum_length (hidden : ℕ) (rows : List (List ℝ))
    (hrows : ∀ r ∈ rows, r.length = hidden) :
    (colSum hidden rows).length = hidden := by
  induction rows with
  | nil => simp [colSum]
  | cons r t ih =>
    rw [colSum_cons]
    simp [ih (fun x hx => hrows x (by simp [hx])), hrows r (by simp)]

theorem zipWith_add_getD (a b : List ℝ) (k : ℕ) (ha : k < a.length)
    (hb : k < b.length) :
    (List.zipWith (fun u v => u + v) a b).getD k 0
      = a.getD k 0 + b.getD k 0 := by
  have hk : k < (List.zipWith (fun u v : ℝ => u + v) a b).length := by
    simp only [List.length_zipWith]
    omega
  rw [List.getD_eq_getElem _ _ hk, List.getElem_zipWith,
    List.getD_eq_getElem _ _ ha, List.getD_eq_getElem _ _ hb]

theorem scaled_rows_length (hidden : ℕ) (mask : List ℝ) (h : List (List ℝ))
    (hrows : ∀ r ∈ h, r.length = hidden) :
    ∀ x ∈ List.zipWith (fun m row => row.map (fun v => v * m)) mask h,
      x.length = hidden := by
  intro x hx
  rcases List.mem_iff_getElem.1 hx with ⟨i, hilen, rfl⟩
  rw [List.getElem_zipWith]
  simp only [List.length_map]
  exact hrows _ (List.getElem_mem _)

theorem getD_replicate_zero (hidden k : ℕ) (hk : k < hidden) :
    (List.replicate hidden (0:ℝ)).getD k 0 = 0 := by
  rw [List.getD_eq_getElem _ _ (by simpa using hk), List.getElem_replicate]

theorem colSum_scaled_getD (hidden k : ℕ) (hk : k < hidden) :
    ∀ (mask : List ℝ) (h : List (List ℝ)), (∀ r ∈ h, r.length = hidden) →
    (colSum hidden (List.zipWith (fun m row => row.map (fun v => v * m))
        mask h)).getD k 0
      = (List.zipWith (fun m row => row.getD k 0 * m) mask h).sum := by
  intro mask
  induction mask with
  | nil =>
    intro h _
    simp [colSum, getD_replicate_zero hidden k hk]
  | cons m t ih =>
    intro h hrows
    cases h with
    | nil => simp [colSum, getD_replicate_zero hidden k hk]
    | cons r hs =>
      have hr : r.length = hidden := hrows r (by simp)
      have hrest : ∀ x ∈ hs, x.length = hidden := fun x hx => hrows x (by simp [hx])
      simp only [List.zipWith_cons_cons, List.sum_cons]
      rw [colSum_cons, zipWith_add_getD _ _ k
        (by rw [List.length_map, hr]; exact hk)
        (by rw [colSum_length hidden _ (scaled_rows_length hidden t hs hrest)]; exact hk)]
      rw [ih hs hrest]
      have hmap : (r.map (fun v => v * m)).getD k 0 = r.getD k 0 * m := by
        rw [getD_map_eq _ _ _ _ (by rw [hr]; exact hk),
          List.getD_eq_getElem _ _ (by rw [hr]; exact hk)]
      rw [hmap]

theorem scale_by_ones (h : List (List ℝ)) : ∀ L, h.length = L →
    List.zipWith (fun m row => row.map (fun v => v * m))
      (List.replicate L 1) h = h := by
  induction h with
  | nil => intro L _; simp
  | cons r t ih =>
    intro L hlen
    cases L with
    | zero => simp at hlen
    | succ n =>
      rw [List.replicate_succ]
      simp only [List.zipWith_cons_cons]
      rw [ih n (by simpa using hlen)]
      have hone : (fun v : ℝ => v * 1) = fun v => v := by
        funext v
        rw [mul_one]
      rw [hone, List.map_id']

theorem sum_replicate_one (L : ℕ) : (List.replicate L (1:ℝ)).sum = L := by
  induction L with
  | zero => simp
  | succ n ih =>
    rw [List.replicate_succ, List.sum_cons, ih]
    push_cast
    ring

/-- C7: under `avg` pooling, entry `k` of the pooled vector is the
mask-weighted mean `(Σ_t h[t][k] * mask[t]) / (Σ_t mask[t])`, and with an
all-ones attention mask the pooled vector is the unweighted mean over the
sequence dimension. -/
theorem avg_pooling_is_masked_mean (hidden : ℕ) (mask : List ℝ)
    (h : List (List ℝ)) (hrows : ∀ r ∈ h, r.length = hidden) :
    (∀ k, k < hidden → (avgPool hidden mask h).getD k 0
        = (List.zipWith (fun m row => row.getD k 0 * m) mask h).sum / mask.sum)
    ∧ (∀ L, h.length = L →
        avgPool hidden (List.replicate L 1) h
          = (colSum hidden h).map (fun s => s / (L:ℝ))) := by
  constructor
  · intro k hk
    have hcl : k < (colSum hidden (List.zipWith
        (fun m row => row.map (fun v => v * m)) mask h)).length := by
      rw [colSum_length hidden _ (scaled_rows_length hidden mask h hrows)]
      exact hk
    rw [avgPool, getD_map_eq _ _ _ _ hcl, ← List.getD_eq_getElem _ 0 hcl,
      colSum_scaled_getD hidden k hk mask h hrows]
  · intro L hL
    rw [avgPool, scale_by_ones h L hL, sum_replicate_one]

/-- Witness for C7 at `hidden = 1`, `mask = [1, 1]`, `h = [[2], [4]]`. -/
theorem avg_pooling_is_masked_mean_witness :
    (avgPool 1 [1, 1] [[(2:ℝ)], [4]]).getD 0 0
      = (List.zipWith (fun m row => row.getD 0 0 * m) [(1:ℝ), 1]
          [[(2:ℝ)], [4]]).sum / ([(1:ℝ), 1]).sum
    ∧ avgPool 1 (List.replicate 2 1) [[(2:ℝ)], [4]]
      = (colSum 1 [[(2:ℝ)], [4]]).map (fun s => s / ((2:ℕ):ℝ)) := by
  have h := avg_pooling_is_masked_mean 1 [1, 1] [[(2:ℝ)], [4]]
    (by intro r hr; simp at hr; rcases hr with rfl | rfl <;> rfl)
  exact ⟨h.1 0 (by decide), h.2 2 rfl⟩

end SimCSE
